import Mathlib

/-!
Verification of the slackbot conversational pipeline.

The definitions below are a shallow embedding of the text-processing core of
the repository: `clean_message`, `extract_think_and_answer`, `chunk_text`,
`format_slack_response` and `get_recent_conversations` from
`src/utils/util.py`, together with the persistence effects of the two event
handlers in `src/bot.py`.  Strings are modelled as `List Char`; the regular
expressions of the source (all of which are simple literal-and-class
patterns) are modelled by explicit scanning functions with the exact
leftmost / lazy semantics of Python's `re`; the float comparison
`i > 0.7 * m` of the chunker is modelled by the exact rational comparison
`10 * i > 7 * m`.  Recursions whose measure is the remaining suffix length
use an explicit fuel argument equal to the input length, so that every
definition evaluates by kernel reduction.
-/

/-- Whitespace as stripped by Python's `str.strip` (ASCII subset). -/
def isWs (c : Char) : Bool :=
  c = ' ' || c = '\t' || c = '\n' || c = '\r' || c = '\x0b' || c = '\x0c'

/-- `beginsWith pat s` is true when `pat` is an initial segment of `s`. -/
def beginsWith : List Char → List Char → Bool
  | [], _ => true
  | _ :: _, [] => false
  | p :: ps, c :: cs => p = c && beginsWith ps cs

/-- Index of the first occurrence of `pat` in `s` (Python `str.find`). -/
def findSub (pat : List Char) : List Char → Option Nat
  | [] => if beginsWith pat [] then some 0 else none
  | c :: cs =>
    if beginsWith pat (c :: cs) then some 0 else (findSub pat cs).map (· + 1)

/-- Index of the last occurrence of `pat` in `s` (Python `str.rfind`). -/
def lastSub (pat : List Char) : List Char → Option Nat
  | [] => if beginsWith pat [] then some 0 else none
  | c :: cs =>
    match lastSub pat cs with
    | some i => some (i + 1)
    | none => if beginsWith pat (c :: cs) then some 0 else none

/-- `pat` occurs somewhere in `s`. -/
def hasSub (pat s : List Char) : Bool := (findSub pat s).isSome

/-- Remove leading whitespace (Python `str.lstrip`). -/
def stripLeft (s : List Char) : List Char := s.dropWhile isWs

/-- Remove trailing whitespace (Python `str.rstrip`). -/
def stripRight (s : List Char) : List Char := (s.reverse.dropWhile isWs).reverse

/-- Python `str.strip`. -/
def strip (s : List Char) : List Char := stripRight (stripLeft s)

/-! ## `clean_message` (src/utils/util.py lines 15-32)

The pattern `SLACK_USER_MENTION_PATTERN = r'<@[A-Z0-9]+>'` is applied by
`re.sub` with empty replacement: the scanner walks left to right, and at a
match (literal `<@`, a maximal nonempty run of `[A-Z0-9]` — since `>` is not
in the class, backtracking cannot shorten the run — then `>`) it drops the
matched span and continues after it. -/

/-- The character class `[A-Z0-9]`. -/
def isUD (c : Char) : Bool := ('A' ≤ c && c ≤ 'Z') || ('0' ≤ c && c ≤ '9')

/-- If a mention token `<@[A-Z0-9]+>` matches at the head of `s`, return the
remainder after the match. -/
def mentionAt (s : List Char) : Option (List Char) :=
  match s with
  | a :: b :: rest =>
    if a = '<' ∧ b = '@' ∧ rest.takeWhile isUD ≠ [] then
      match rest.dropWhile isUD with
      | g :: after => if g = '>' then some after else none
      | [] => none
    else none
  | _ => none

def removeMentionsGo : Nat → List Char → List Char
  | 0, s => s
  | f + 1, s =>
    match s with
    | [] => []
    | c :: cs =>
      match mentionAt (c :: cs) with
      | some after => removeMentionsGo f after
      | none => c :: removeMentionsGo f cs

/-- `re.sub(SLACK_USER_MENTION_PATTERN, '', text)`. -/
def removeMentions (s : List Char) : List Char := removeMentionsGo s.length s

/-- `clean_message` from src/utils/util.py: remove mentions, then strip. -/
def clean_message (s : List Char) : List Char := strip (removeMentions s)

/-- Some position of `s` starts a mention token. -/
def hasMention : List Char → Bool
  | [] => false
  | c :: cs => (mentionAt (c :: cs)).isSome || hasMention cs

/-! ## `extract_think_and_answer` (src/utils/util.py lines 34-63)

`re.finditer(r'<think>(.*?)</think>', s, re.DOTALL)` yields leftmost
non-overlapping matches; laziness of `(.*?)` means each match runs from an
occurrence of `<think>` to the first `</think>` after it. -/

def startTag : List Char := ("<think>").data
def endTag : List Char := ("</think>").data

def thinkInnersGo : Nat → List Char → List (List Char)
  | 0, _ => []
  | f + 1, s =>
    match findSub startTag s with
    | none => []
    | some i =>
      let rest := s.drop (i + 7)
      match findSub endTag rest with
      | none => []
      | some j => rest.take j :: thinkInnersGo f (rest.drop (j + 8))

/-- Inner texts of all non-overlapping `<think>...</think>` spans, in order. -/
def thinkInners (s : List Char) : List (List Char) := thinkInnersGo s.length s

/-- `extract_think_and_answer` from src/utils/util.py: the trimmed inner
texts of the think spans (or `none` when no `</think>` occurs), and the
trimmed text after the last `</think>` (or the trimmed whole input). -/
def extract_think_and_answer (s : List Char) : Option (List (List Char)) × List Char :=
  let parts := (thinkInners s).map strip
  match lastSub endTag s with
  | none => (none, strip s)
  | some j => (some parts, strip (s.drop (j + 8)))

/-! ## `chunk_text` (src/utils/util.py lines 65-107) -/

/-- Whether a boundary candidate (an `rfind` result on the window) passes
the guard `index != -1 and index > max_length * 0.7`. -/
def boundaryHit (o : Option Nat) (m : Nat) : Bool :=
  match o with
  | some i => 7 * m < 10 * i
  | none => false

/-- The split index chosen by the boundary selection (lines 82-94): last
period or newline in the first `m` characters if beyond `0.7 * m`, else
last space at any position, else `m`. -/
def splitIndex (t : List Char) (m : Nat) : Nat :=
  let w := t.take m
  let lp := lastSub ['.'] w
  let ln := lastSub ['\n'] w
  let ls := lastSub [' '] w
  if boundaryHit lp m then lp.getD 0 + 1
  else if boundaryHit ln m then ln.getD 0 + 1
  else
    match ls with
    | some i => i + 1
    | none => m

/-- `text.find(' ', m)`: first space at index `m` or later. -/
def findSpaceFrom (t : List Char) (m : Nat) : Option Nat :=
  (findSub [' '] (t.drop m)).map (· + m)

/-- The final split index (lines 96-100): when the selected index equals
`m`, search forward for a space and use it if within 100 characters. -/
def chunkEnd (t : List Char) (m : Nat) : Nat :=
  let e := splitIndex t m
  if e = m ∧ m < t.length then
    match findSpaceFrom t m with
    | some j => if j - m < 100 then j + 1 else e
    | none => e
  else e

def chunkGo : Nat → List Char → Nat → List (List Char)
  | 0, _, _ => []
  | f + 1, t, m =>
    if t = [] then []
    else if t.length ≤ m then [t]
    else
      let e := chunkEnd t m
      let c := strip (t.take e)
      let r := strip (t.drop e)
      (if c = [] then [] else [c]) ++ chunkGo f r m

/-- `chunk_text` from src/utils/util.py.  The fuel `t.length` suffices
whenever `1 ≤ m`, because every iteration consumes at least one character. -/
def chunk_text (t : List Char) (m : Nat) : List (List Char) := chunkGo t.length t m

/-! ## `format_slack_response` (src/utils/util.py lines 109-178) -/

/-- A Slack block: a mrkdwn section or a divider. -/
inductive SBlock where
  | sec : List Char → SBlock
  | divider : SBlock
deriving DecidableEq

def thinkHeading : SBlock := SBlock.sec ("*Thinking Process* :arrow_down:").data

def answerHeading : SBlock := SBlock.sec ("*Answer:*").data

def codeFence (s : List Char) : List Char := ("```").data ++ s ++ ("```").data

def star2 : List Char := ['*', '*']

/-- `re.sub(r'\*\*(.*?)\*\*', r'*\1*', s)`: each lazily-matched
double-asterisk span is rewritten to single asterisks. -/
def boldSubGo : Nat → List Char → List Char
  | 0, s => s
  | f + 1, s =>
    match s with
    | [] => []
    | c :: cs =>
      if beginsWith star2 (c :: cs) then
        match findSub star2 cs.tail with
        | some k =>
          '*' :: (cs.tail.take k ++ '*' :: boldSubGo f (cs.tail.drop (k + 2)))
        | none => c :: boldSubGo f cs
      else c :: boldSubGo f cs

def boldSub (s : List Char) : List Char := boldSubGo s.length s

/-- The code-style blocks emitted for the reasoning segments. -/
def thinkBlocksOf (parts : List (List Char)) : List SBlock :=
  parts.foldr
    (fun p acc => ((chunk_text p 2900).map (fun c => SBlock.sec (codeFence c))) ++ acc) []

/-- `format_slack_response` from src/utils/util.py: optional thinking
section (heading, code chunks, divider) followed by the answer heading and
the chunked bold-transformed answer. -/
def format_slack_response (s : List Char) : List SBlock :=
  let ta := extract_think_and_answer s
  let tb :=
    match ta.1 with
    | some parts =>
      if parts = [] then []
      else thinkHeading :: (thinkBlocksOf parts ++ [SBlock.divider])
    | none => []
  tb ++ (answerHeading :: (chunk_text (boldSub ta.2) 2900).map SBlock.sec)

/-! ## The conversation store and `get_recent_conversations`
(src/db/models.py, src/utils/util.py lines 180-211) -/

/-- A row of the `conversations` table. -/
structure Conversation where
  user_id : List Char
  channel_id : List Char
  message_id : List Char
  incoming_message : List Char
  outgoing_message : List Char
  model_name : List Char
  created_at : Nat
deriving DecidableEq

/-- `ORDER BY created_at DESC`: the sort relation used on query results. -/
def rDesc (a b : Conversation) : Prop := b.created_at ≤ a.created_at

instance : DecidableRel rDesc := fun a b => Nat.decLe _ _

instance : IsTotal Conversation rDesc :=
  ⟨fun a b => Nat.le_total b.created_at a.created_at⟩

instance : IsTrans Conversation rDesc :=
  ⟨fun _ _ _ h1 h2 => Nat.le_trans h2 h1⟩

/-- The WHERE clause: exact match on channel and model. -/
def convMatches (c : Conversation) (ch mo : List Char) : Bool :=
  c.channel_id = ch && c.model_name = mo

def userLine (c : Conversation) : List Char :=
  ("user: \"").data ++ c.incoming_message ++ ("\"").data

def assistantLine (c : Conversation) : List Char :=
  ("assistant: \"").data ++ (extract_think_and_answer c.outgoing_message).2 ++ ("\"").data

/-- The `context_parts` loop body: two lines per conversation, in order. -/
def contextLines (convs : List Conversation) : List (List Char) :=
  convs.foldr (fun c acc => userLine c :: assistantLine c :: acc) []

/-- `"\n".join(parts)`. -/
def joinSep (sep : List Char) : List (List Char) → List Char
  | [] => []
  | [p] => p
  | p :: ps => p ++ sep ++ joinSep sep ps

/-- `get_recent_conversations` from src/utils/util.py: filter by channel and
model, order newest first, take `limit`, reverse to chronological order,
emit a user and an assistant line per record, join with newlines. -/
def get_recent_conversations (db : List Conversation) (ch mo : List Char) (limit : Nat) :
    List Char :=
  let convs := ((db.filter (fun c => convMatches c ch mo)).insertionSort rDesc).take limit
  joinSep ['\n'] (contextLines convs.reverse)

/-- Split on a character (used to state the line structure of the context). -/
def splitOnC (sep : Char) : List Char → List (List Char)
  | [] => [[]]
  | c :: cs =>
    match splitOnC sep cs with
    | [] => [[c]]
    | h :: t => if c = sep then [] :: h :: t else (c :: h) :: t

/-! ## The event handlers (src/bot.py lines 58-171)

The handlers' persistence effects are modelled by explicit state passing on
the list of rows.  `db.add` + `db.commit` appends a row;
`db.query(...).filter_by(message_id=ts).first()` followed by the attribute
assignment and `db.commit` updates the first row with that message id.  A
failing store operation (`except` + `db.rollback()`) leaves the committed
state unchanged, which the flagged variants model with a `Bool` per
transaction. -/

structure SlackEvent where
  user : List Char
  channel : List Char
  ts : List Char
  text : List Char

/-- Update the first row whose `message_id` is `ts` with outgoing text `r`
(src/bot.py lines 151-154). -/
def updateFirstOutgoing : List Conversation → List Char → List Char → List Conversation
  | [], _, _ => []
  | c :: rest, ts, r =>
    if c.message_id = ts then
      ⟨c.user_id, c.channel_id, c.message_id, c.incoming_message, r, c.model_name,
        c.created_at⟩ :: rest
    else c :: updateFirstOutgoing rest ts r

/-- The row created on receipt of a mention (src/bot.py lines 97-106):
outgoing text empty until the model responds. -/
def mentionRecord (ev : SlackEvent) (modelName : List Char) (now : Nat) : Conversation :=
  ⟨ev.user, ev.channel, ev.ts, clean_message ev.text, [], modelName, now⟩

/-- The store state after `handle_mention` runs with model response `resp`
and both transactions succeed (src/bot.py lines 96-160). -/
def handle_mention_store (db : List Conversation) (ev : SlackEvent) (modelName : List Char)
    (now : Nat) (resp : List Char) : List Conversation :=
  updateFirstOutgoing (db ++ [mentionRecord ev modelName now]) ev.ts resp

/-- The row created by the echo handler (src/bot.py lines 69-76). -/
def echoRecord (ev : SlackEvent) (now : Nat) : Conversation :=
  ⟨ev.user, ev.channel, ev.ts, clean_message ev.text, clean_message ev.text,
    ("echo").data, now⟩

/-- `handle_message` (src/bot.py lines 58-83): store state and reply.  The
reply `say(cleaned_text)` is sent whether or not the insert committed. -/
def handle_message_flow (db : List Conversation) (ev : SlackEvent) (now : Nat)
    (storeOk : Bool) : List Conversation × Option (List Char) :=
  if ev.text = [] then (db, none)
  else ((if storeOk then db ++ [echoRecord ev now] else db), some (clean_message ev.text))

/-- `handle_mention` (src/bot.py lines 86-164) on the success path of the
model call: each of the two store transactions may fail and roll back, and
the formatted reply is sent regardless. -/
def handle_mention_flow (db : List Conversation) (ev : SlackEvent) (modelName : List Char)
    (now : Nat) (resp : List Char) (createOk updateOk : Bool) :
    List Conversation × Option (List SBlock) :=
  if ev.text = [] then (db, none)
  else
    let db1 := if createOk then db ++ [mentionRecord ev modelName now] else db
    let db2 := if updateOk then updateFirstOutgoing db1 ev.ts resp else db1
    (db2, some (format_slack_response resp))

/-! ## Helper lemmas: whitespace stripping -/

theorem dropWhile_dropWhile (p : Char → Bool) (l : List Char) :
    (l.dropWhile p).dropWhile p = l.dropWhile p := by
  induction l with
  | nil => rfl
  | cons c cs ih =>
    by_cases h : p c = true
    · simp [List.dropWhile_cons, h, ih]
    · simp [List.dropWhile_cons, h]

theorem stripLeft_head_not_ws (s : List Char) (c : Char) (cs : List Char)
    (h : stripLeft s = c :: cs) : isWs c = false := by
  induction s with
  | nil => simp [stripLeft] at h
  | cons a as ih =>
    by_cases ha : isWs a = true
    · exact ih (by simpa [stripLeft, List.dropWhile_cons, ha] using h)
    · simp only [stripLeft, List.dropWhile_cons, if_neg ha] at h
      injection h with h1 h2
      rw [← h1]
      simpa using ha

theorem stripRight_decomp (x : List Char) :
    ∃ post, (∀ c ∈ post, isWs c = true) ∧ x = stripRight x ++ post := by
  refine ⟨(x.reverse.takeWhile isWs).reverse, ?_, ?_⟩
  · intro c h
    rw [List.mem_reverse] at h
    exact List.mem_takeWhile_imp h
  · have h1 := congrArg List.reverse (List.takeWhile_append_dropWhile isWs x.reverse)
    rw [List.reverse_append, List.reverse_reverse] at h1
    exact h1.symm

theorem strip_decomp (s : List Char) :
    ∃ pre post, (∀ c ∈ pre, isWs c = true) ∧ (∀ c ∈ post, isWs c = true) ∧
      s = pre ++ strip s ++ post := by
  obtain ⟨post, hpost, hx⟩ := stripRight_decomp (stripLeft s)
  refine ⟨s.takeWhile isWs, post, ?_, hpost, ?_⟩
  · intro c h
    exact List.mem_takeWhile_imp h
  · have hx' : stripLeft s = strip s ++ post := hx
    calc s = s.takeWhile isWs ++ stripLeft s := (List.takeWhile_append_dropWhile isWs s).symm
    _ = s.takeWhile isWs ++ (strip s ++ post) := by rw [hx']
    _ = s.takeWhile isWs ++ strip s ++ post := by rw [List.append_assoc]

theorem stripRight_length_le (x : List Char) : (stripRight x).length ≤ x.length := by
  simpa [stripRight] using (List.dropWhile_sublist isWs).length_le.trans (by simp)

theorem strip_length_le (s : List Char) : (strip s).length ≤ s.length := by
  refine (stripRight_length_le (stripLeft s)).trans ?_
  simpa [stripLeft] using (List.dropWhile_sublist isWs).length_le

theorem stripRight_stripRight (x : List Char) : stripRight (stripRight x) = stripRight x := by
  simp [stripRight, dropWhile_dropWhile]

theorem stripLeft_stripRight_stripLeft (s : List Char) :
    stripLeft (stripRight (stripLeft s)) = stripRight (stripLeft s) := by
  rcases h : stripRight (stripLeft s) with _ | ⟨c, cs⟩
  · rfl
  · obtain ⟨post, _, hx⟩ := stripRight_decomp (stripLeft s)
    rw [h] at hx
    have hc : isWs c = false := stripLeft_head_not_ws s c (cs ++ post) (by simpa using hx)
    simp [stripLeft, List.dropWhile_cons, hc]

theorem strip_strip (s : List Char) : strip (strip s) = strip s := by
  show stripRight (stripLeft (stripRight (stripLeft s))) = stripRight (stripLeft s)
  rw [stripLeft_stripRight_stripLeft, stripRight_stripRight]

/-! ## Helper lemmas: substring search -/

theorem beginsWith_length (pat s : List Char) (h : beginsWith pat s = true) :
    pat.length ≤ s.length := by
  induction pat generalizing s with
  | nil => simp
  | cons p ps ih =>
    cases s with
    | nil => simp [beginsWith] at h
    | cons c cs =>
      simp only [beginsWith, Bool.and_eq_true] at h
      simpa using ih cs h.2

theorem lastSub_none_iff (pat s : List Char) :
    lastSub pat s = none ↔ findSub pat s = none := by
  induction s with
  | nil => simp [lastSub, findSub]
  | cons c cs ih =>
    simp only [lastSub, findSub]
    rcases h : lastSub pat cs with _ | i
    · rcases hb : beginsWith pat (c :: cs) with _ | _
      · simp [h, hb, ih.mp h]
      · simp [h, hb]
    · rcases hb : beginsWith pat (c :: cs) with _ | _
      · have : findSub pat cs ≠ none := fun hc => by
          rw [ih.mpr hc] at h; exact Option.noConfusion h
        rcases hf : findSub pat cs with _ | k
        · exact absurd hf this
        · simp [h, hb, hf]
      · simp [h, hb]

theorem lastSub_add_le (pat s : List Char) (i : Nat) (hp : 1 ≤ pat.length)
    (h : lastSub pat s = some i) : i + pat.length ≤ s.length := by
  induction s generalizing i with
  | nil =>
    simp only [lastSub] at h
    by_cases hb : beginsWith pat [] = true
    · have hle : pat.length ≤ 0 := by simpa using beginsWith_length pat [] hb
      omega
    · simp [hb] at h
  | cons c cs ih =>
    simp only [lastSub] at h
    rcases hl : lastSub pat cs with _ | k
    · simp only [hl] at h
      by_cases hb : beginsWith pat (c :: cs) = true
      · rw [if_pos hb] at h
        have hi : i = 0 := by
          injection h with h'
          omega
        have hle : pat.length ≤ cs.length + 1 := by
          simpa using beginsWith_length pat (c :: cs) hb
        simp only [List.length_cons]
        omega
      · rw [if_neg hb] at h
        exact absurd h (by simp)
    · simp only [hl, Option.some.injEq] at h
      have hk := ih k hl
      simp only [List.length_cons]
      omega

/-! ## Helper lemmas: the chunker -/

theorem splitIndex_le (t : List Char) (m : Nat) : splitIndex t m ≤ m := by
  have hw : (t.take m).length ≤ m := by simp
  simp only [splitIndex]
  split
  next hhit =>
    rcases hl : lastSub ['.'] (t.take m) with _ | i
    · rw [hl] at hhit; simp [boundaryHit] at hhit
    · have := lastSub_add_le ['.'] (t.take m) i (by simp) hl
      simp only [Option.getD_some]
      simp at this
      omega
  next =>
    split
    next hhit =>
      rcases hl : lastSub ['\n'] (t.take m) with _ | i
      · rw [hl] at hhit; simp [boundaryHit] at hhit
      · have := lastSub_add_le ['\n'] (t.take m) i (by simp) hl
        simp only [Option.getD_some]
        simp at this
        omega
    next =>
      split
      next i hl =>
        have := lastSub_add_le [' '] (t.take m) i (by simp) hl
        simp at this
        omega
      next => exact Nat.le_refl m

theorem splitIndex_pos (t : List Char) (m : Nat) (hm : 1 ≤ m) : 1 ≤ splitIndex t m := by
  simp only [splitIndex]
  split
  · omega
  · split
    · omega
    · split
      · omega
      · exact hm

theorem chunkEnd_pos (t : List Char) (m : Nat) (hm : 1 ≤ m) : 1 ≤ chunkEnd t m := by
  simp only [chunkEnd]
  split
  · split
    · split
      · omega
      · exact splitIndex_pos t m hm
    · exact splitIndex_pos t m hm
  · exact splitIndex_pos t m hm

theorem chunkEnd_le_add (t : List Char) (m : Nat) : chunkEnd t m ≤ m + 100 := by
  have hs := splitIndex_le t m
  simp only [chunkEnd]
  split
  · split
    next j hj =>
      split
      next hlt => omega
      next => omega
    next => omega
  · omega

theorem chunkEnd_eq_of_lt (t : List Char) (m : Nat) (h : splitIndex t m < m) :
    chunkEnd t m = splitIndex t m := by
  simp only [chunkEnd]
  rw [if_neg]
  intro hc
  omega

theorem chunkGo_nil (f m : Nat) : chunkGo f [] m = [] := by
  cases f <;> simp [chunkGo]

theorem chunk_rest_lt (t : List Char) (m : Nat) (hm : 1 ≤ m) (h : m < t.length) :
    (strip (t.drop (chunkEnd t m))).length < t.length := by
  have h1 := strip_length_le (t.drop (chunkEnd t m))
  have h2 : (t.drop (chunkEnd t m)).length = t.length - chunkEnd t m := by simp
  have h3 := chunkEnd_pos t m hm
  omega

theorem chunkGo_fuel (m : Nat) (hm : 1 ≤ m) :
    ∀ f1 f2 t, t.length ≤ f1 → t.length ≤ f2 → chunkGo f1 t m = chunkGo f2 t m := by
  intro f1
  induction f1 with
  | zero =>
    intro f2 t h1 _
    have ht : t = [] := List.eq_nil_of_length_eq_zero (Nat.le_zero.mp h1)
    subst ht
    rw [chunkGo_nil, chunkGo_nil]
  | succ f ih =>
    intro f2 t h1 h2
    cases f2 with
    | zero =>
      have ht : t = [] := List.eq_nil_of_length_eq_zero (Nat.le_zero.mp h2)
      subst ht
      rw [chunkGo_nil, chunkGo_nil]
    | succ g =>
      by_cases ht : t = []
      · subst ht
        rw [chunkGo_nil, chunkGo_nil]
      · by_cases hlen : t.length ≤ m
        · simp [chunkGo, ht, hlen]
        · have hml : m < t.length := Nat.lt_of_not_le hlen
          have hrest : (strip (t.drop (chunkEnd t m))).length < t.length :=
            chunk_rest_lt t m hm hml
          simp only [chunkGo, if_neg ht, if_neg hlen]
          congr 1
          exact ih g (strip (t.drop (chunkEnd t m))) (by omega) (by omega)

theorem chunk_text_nil (m : Nat) : chunk_text [] m = [] := rfl

theorem chunk_text_small (t : List Char) (m : Nat) (ht : t ≠ []) (h : t.length ≤ m) :
    chunk_text t m = [t] := by
  obtain ⟨n, hn⟩ : ∃ n, t.length = n + 1 := by
    cases t with
    | nil => exact absurd rfl ht
    | cons a as => exact ⟨as.length, by simp⟩
  unfold chunk_text
  rw [hn]
  simp [chunkGo, ht, h]

theorem chunk_text_step (t : List Char) (m : Nat) (hm : 1 ≤ m) (h : m < t.length) :
    chunk_text t m =
      (if strip (t.take (chunkEnd t m)) = [] then []
        else [strip (t.take (chunkEnd t m))]) ++
        chunk_text (strip (t.drop (chunkEnd t m))) m := by
  have ht : t ≠ [] := by
    intro e
    subst e
    simp at h
  obtain ⟨n, hn⟩ : ∃ n, t.length = n + 1 := by
    cases t with
    | nil => exact absurd rfl ht
    | cons a as => exact ⟨as.length, by simp⟩
  have hrest : (strip (t.drop (chunkEnd t m))).length < t.length :=
    chunk_rest_lt t m hm h
  show chunkGo t.length t m = _
  rw [hn]
  simp only [chunkGo, if_neg ht, if_neg (Nat.not_le.mpr h)]
  congr 1
  exact chunkGo_fuel m hm n _ (strip (t.drop (chunkEnd t m))) (by omega) (by omega)

theorem chunk_all_le (m : Nat) (hm : 1 ≤ m) :
    ∀ n t, t.length ≤ n → ∀ c ∈ chunk_text t m, c.length ≤ m + 100 := by
  intro n
  induction n with
  | zero =>
    intro t h c hc
    have ht : t = [] := List.eq_nil_of_length_eq_zero (Nat.le_zero.mp h)
    subst ht
    rw [chunk_text_nil] at hc
    exact absurd hc (List.not_mem_nil c)
  | succ n ih =>
    intro t h c hc
    by_cases ht : t = []
    · subst ht
      rw [chunk_text_nil] at hc
      exact absurd hc (List.not_mem_nil c)
    · by_cases hlen : t.length ≤ m
      · rw [chunk_text_small t m ht hlen] at hc
        simp at hc
        subst hc
        omega
      · have hml : m < t.length := Nat.lt_of_not_le hlen
        rw [chunk_text_step t m hm hml, List.mem_append] at hc
        rcases hc with h1 | h2
        · have hcs : c = strip (t.take (chunkEnd t m)) := by
            rcases hcc : strip (t.take (chunkEnd t m)) with _ | _
            · rw [hcc] at h1
              simp at h1
            · rw [hcc] at h1
              rw [if_neg (by simp [hcc])] at h1
              simpa [hcc] using h1
          have hl1 : c.length ≤ (t.take (chunkEnd t m)).length := by
            rw [hcs]
            exact strip_length_le _
          have hl2 : (t.take (chunkEnd t m)).length ≤ chunkEnd t m := by simp
          have hl3 := chunkEnd_le_add t m
          omega
        · have hrest := chunk_rest_lt t m hm hml
          exact ih (strip (t.drop (chunkEnd t m))) (by omega) c h2

/-! ## Helper lemmas: chunk reconstruction (whitespace-only separators) -/

/-- Every character of `w` is whitespace. -/
def allWsL (w : List Char) : Prop := ∀ c ∈ w, isWs c = true

/-- Interleave separators and chunks: `w0 ++ c1 ++ w1 ++ c2 ++ ... ++ wn`. -/
def interleave : List (List Char) → List (List Char) → List Char
  | [], _ => []
  | w :: _, [] => w
  | w :: ws, c :: cs => w ++ c ++ interleave ws cs

def prependFirstSep (p : List Char) : List (List Char) → List (List Char)
  | [] => [p]
  | w :: ws => (p ++ w) :: ws

def appendLastSep : List (List Char) → List Char → List (List Char)
  | [], p => [p]
  | [w], p => [w ++ p]
  | w :: ws, p => w :: appendLastSep ws p

theorem allWsL_append (a b : List Char) (ha : allWsL a) (hb : allWsL b) : allWsL (a ++ b) := by
  intro c hc
  rcases List.mem_append.mp hc with h | h
  · exact ha c h
  · exact hb c h

theorem prependFirstSep_length (p : List Char) (ws : List (List Char)) (h : ws ≠ []) :
    (prependFirstSep p ws).length = ws.length := by
  cases ws with
  | nil => exact absurd rfl h
  | cons w ws' => simp [prependFirstSep]

theorem appendLastSep_length (ws : List (List Char)) (p : List Char) (h : ws ≠ []) :
    (appendLastSep ws p).length = ws.length := by
  induction ws with
  | nil => exact absurd rfl h
  | cons w ws' ih =>
    cases ws' with
    | nil => simp [appendLastSep]
    | cons w2 ws'' => simpa [appendLastSep] using ih (by simp)

theorem appendLastSep_ne_nil (ws : List (List Char)) (p : List Char) :
    appendLastSep ws p ≠ [] := by
  cases ws with
  | nil => simp [appendLastSep]
  | cons w ws' =>
    cases ws' with
    | nil => simp [appendLastSep]
    | cons w2 ws'' => simp [appendLastSep]

theorem prependFirstSep_allWs (p : List Char) (ws : List (List Char)) (hp : allWsL p)
    (hws : ∀ w ∈ ws, allWsL w) : ∀ w ∈ prependFirstSep p ws, allWsL w := by
  cases ws with
  | nil =>
    intro w hw
    simp [prependFirstSep] at hw
    subst hw
    exact hp
  | cons w0 ws' =>
    intro w hw
    simp only [prependFirstSep, List.mem_cons] at hw
    rcases hw with h | h
    · subst h
      exact allWsL_append p w0 hp (hws w0 (by simp))
    · exact hws w (by simp [h])

theorem appendLastSep_allWs (ws : List (List Char)) (p : List Char) (hp : allWsL p)
    (hws : ∀ w ∈ ws, allWsL w) : ∀ w ∈ appendLastSep ws p, allWsL w := by
  induction ws with
  | nil =>
    intro w hw
    simp [appendLastSep] at hw
    subst hw
    exact hp
  | cons w0 ws' ih =>
    cases ws' with
    | nil =>
      intro w hw
      simp [appendLastSep] at hw
      subst hw
      exact allWsL_append w0 p (hws w0 (by simp)) hp
    | cons w2 ws'' =>
      intro w hw
      simp only [appendLastSep, List.mem_cons] at hw
      rcases hw with h | h
      · rw [h]
        exact hws _ (by simp)
      · exact ih (fun x hx => hws x (by simp [List.mem_cons.mp hx])) w h

theorem interleave_prependFirst (ws : List (List Char)) (cs : List (List Char))
    (p : List Char) (h : ws ≠ []) :
    interleave (prependFirstSep p ws) cs = p ++ interleave ws cs := by
  cases ws with
  | nil => exact absurd rfl h
  | cons w ws' =>
    cases cs with
    | nil => simp [prependFirstSep, interleave]
    | cons c cs' => simp [prependFirstSep, interleave, List.append_assoc]

theorem interleave_appendLast (cs : List (List Char)) :
    ∀ ws : List (List Char), ∀ p : List Char, ws.length = cs.length + 1 →
      interleave (appendLastSep ws p) cs = interleave ws cs ++ p := by
  induction cs with
  | nil =>
    intro ws p h
    have : ∃ w, ws = [w] := by
      cases ws with
      | nil => simp at h
      | cons w ws' =>
        cases ws' with
        | nil => exact ⟨w, rfl⟩
        | cons w2 ws'' => simp at h
    obtain ⟨w, hw⟩ := this
    subst hw
    simp [appendLastSep, interleave]
  | cons c cs' ih =>
    intro ws p h
    have : ∃ w w2 ws'', ws = w :: w2 :: ws'' := by
      cases ws with
      | nil => simp at h
      | cons w ws' =>
        cases ws' with
        | nil =>
          simp only [List.length_cons, List.length_nil] at h
          omega
        | cons w2 ws'' => exact ⟨w, w2, ws'', rfl⟩
    obtain ⟨w, w2, ws'', hw⟩ := this
    subst hw
    have hlen : (w2 :: ws'').length = cs'.length + 1 := by
      simp at h
      simpa using h
    calc interleave (appendLastSep (w :: w2 :: ws'') p) (c :: cs')
        = w ++ c ++ interleave (appendLastSep (w2 :: ws'') p) cs' := by
          simp [appendLastSep, interleave]
    _ = w ++ c ++ (interleave (w2 :: ws'') cs' ++ p) := by rw [ih (w2 :: ws'') p hlen]
    _ = interleave (w :: w2 :: ws'') (c :: cs') ++ p := by
          simp [interleave, List.append_assoc]

theorem chunk_reconstruct (m : Nat) (hm : 1 ≤ m) :
    ∀ n t, t.length ≤ n →
      ∃ seps : List (List Char),
        seps.length = (chunk_text t m).length + 1 ∧ (∀ w ∈ seps, allWsL w) ∧
          interleave seps (chunk_text t m) = t := by
  intro n
  induction n with
  | zero =>
    intro t h
    have ht : t = [] := List.eq_nil_of_length_eq_zero (Nat.le_zero.mp h)
    subst ht
    refine ⟨[[]], by simp [chunk_text_nil], ?_, by simp [chunk_text_nil, interleave]⟩
    intro w hw
    simp at hw
    subst hw
    intro c hc
    simp at hc
  | succ n ih =>
    intro t h
    by_cases ht : t = []
    · subst ht
      refine ⟨[[]], by simp [chunk_text_nil], ?_, by simp [chunk_text_nil, interleave]⟩
      intro w hw
      simp at hw
      subst hw
      intro c hc
      simp at hc
    · by_cases hlen : t.length ≤ m
      · rw [chunk_text_small t m ht hlen]
        refine ⟨[[], []], by simp, ?_, by simp [interleave]⟩
        intro w hw
        simp at hw
        subst hw
        intro c hc
        simp at hc
      · have hml : m < t.length := Nat.lt_of_not_le hlen
        have he := chunkEnd_pos t m hm
        obtain ⟨p1, q1, hp1, hq1, hdec1⟩ := strip_decomp (t.take (chunkEnd t m))
        obtain ⟨p2, q2, hp2, hq2, hdec2⟩ := strip_decomp (t.drop (chunkEnd t m))
        have hrest := chunk_rest_lt t m hm hml
        obtain ⟨seps', hlen', hws', hint'⟩ := ih (strip (t.drop (chunkEnd t m))) (by omega)
        have hne' : seps' ≠ [] := by
          intro hcon
          rw [hcon] at hlen'
          simp at hlen'
        have hYne : appendLastSep seps' q2 ≠ [] := appendLastSep_ne_nil seps' q2
        have hYlen : (appendLastSep seps' q2).length = seps'.length :=
          appendLastSep_length seps' q2 hne'
        have hYws : ∀ w ∈ appendLastSep seps' q2, allWsL w :=
          appendLastSep_allWs seps' q2 hq2 hws'
        have hintY : interleave (appendLastSep seps' q2) (chunk_text (strip (t.drop (chunkEnd t m))) m)
            = strip (t.drop (chunkEnd t m)) ++ q2 := by
          rw [interleave_appendLast _ seps' q2 hlen', hint']
        rw [chunk_text_step t m hm hml]
        by_cases hc : strip (t.take (chunkEnd t m)) = []
        · rw [if_pos hc, List.nil_append]
          have htake : allWsL (t.take (chunkEnd t m)) := by
            rw [hdec1, hc]
            exact allWsL_append _ _ (allWsL_append p1 [] hp1 (by intro c hc2; simp at hc2)) hq1
          refine ⟨prependFirstSep (t.take (chunkEnd t m) ++ p2) (appendLastSep seps' q2),
            ?_, ?_, ?_⟩
          · rw [prependFirstSep_length _ _ hYne, hYlen, hlen']
          · exact prependFirstSep_allWs _ _ (allWsL_append _ _ htake hp2) hYws
          · calc interleave (prependFirstSep (t.take (chunkEnd t m) ++ p2) (appendLastSep seps' q2))
                  (chunk_text (strip (t.drop (chunkEnd t m))) m)
                = (t.take (chunkEnd t m) ++ p2) ++
                    interleave (appendLastSep seps' q2)
                      (chunk_text (strip (t.drop (chunkEnd t m))) m) :=
                  interleave_prependFirst _ _ _ hYne
            _ = (t.take (chunkEnd t m) ++ p2) ++ (strip (t.drop (chunkEnd t m)) ++ q2) := by
                  rw [hintY]
            _ = t.take (chunkEnd t m) ++ (p2 ++ strip (t.drop (chunkEnd t m)) ++ q2) := by
                  simp [List.append_assoc]
            _ = t.take (chunkEnd t m) ++ t.drop (chunkEnd t m) := by rw [← hdec2]
            _ = t := List.take_append_drop _ t
        · rw [if_neg hc]
          refine ⟨p1 :: prependFirstSep (q1 ++ p2) (appendLastSep seps' q2), ?_, ?_, ?_⟩
          · simp only [List.length_cons, List.singleton_append]
            rw [prependFirstSep_length _ _ hYne, hYlen, hlen']
          · intro w hw
            rcases List.mem_cons.mp hw with h1 | h1
            · subst h1
              exact hp1
            · exact prependFirstSep_allWs _ _ (allWsL_append q1 p2 hq1 hp2) hYws w h1
          · have hX : interleave (prependFirstSep (q1 ++ p2) (appendLastSep seps' q2))
                (chunk_text (strip (t.drop (chunkEnd t m))) m)
                = (q1 ++ p2) ++ (strip (t.drop (chunkEnd t m)) ++ q2) := by
              rw [interleave_prependFirst _ _ _ hYne, hintY]
            calc interleave (p1 :: prependFirstSep (q1 ++ p2) (appendLastSep seps' q2))
                  ([strip (t.take (chunkEnd t m))] ++ chunk_text (strip (t.drop (chunkEnd t m))) m)
                = p1 ++ strip (t.take (chunkEnd t m)) ++
                    interleave (prependFirstSep (q1 ++ p2) (appendLastSep seps' q2))
                      (chunk_text (strip (t.drop (chunkEnd t m))) m) := by
                  simp [interleave, List.append_assoc]
            _ = p1 ++ strip (t.take (chunkEnd t m)) ++ ((q1 ++ p2) ++
                    (strip (t.drop (chunkEnd t m)) ++ q2)) := by rw [hX]
            _ = (p1 ++ strip (t.take (chunkEnd t m)) ++ q1) ++
                    (p2 ++ strip (t.drop (chunkEnd t m)) ++ q2) := by
                  simp [List.append_assoc]
            _ = t.take (chunkEnd t m) ++ t.drop (chunkEnd t m) := by rw [← hdec1, ← hdec2]
            _ = t := List.take_append_drop _ t

/-! ## Helper lemmas: mention removal -/

theorem removeMentionsGo_no_mention (f : Nat) :
    ∀ s, hasMention s = false → removeMentionsGo f s = s := by
  induction f with
  | zero => intro s _; rfl
  | succ f ih =>
    intro s h
    cases s with
    | nil => rfl
    | cons c cs =>
      simp only [hasMention, Bool.or_eq_false_iff] at h
      rcases hm : mentionAt (c :: cs) with _ | a
      · simp only [removeMentionsGo, hm]
        rw [ih cs h.2]
      · rw [hm] at h
        simp at h

theorem removeMentions_no_mention (s : List Char) (h : hasMention s = false) :
    removeMentions s = s :=
  removeMentionsGo_no_mention s.length s h

/-! ## Helper lemmas: line splitting and joining -/

theorem splitOnC_ne_nil (sep : Char) (s : List Char) : splitOnC sep s ≠ [] := by
  cases s with
  | nil => simp [splitOnC]
  | cons c cs =>
    simp only [splitOnC]
    split
    · simp
    · split <;> simp

theorem splitOnC_sep_free (sep : Char) : ∀ p : List Char, sep ∉ p → splitOnC sep p = [p] := by
  intro p
  induction p with
  | nil => intro _; rfl
  | cons c cs ih =>
    intro h
    have hc : ¬(c = sep) := by
      intro e
      exact h (by simp [e])
    have hcs : sep ∉ cs := fun hx => h (by simp [hx])
    simp [splitOnC, ih hcs, hc]

theorem splitOnC_append (sep : Char) : ∀ p rest, sep ∉ p →
    splitOnC sep (p ++ sep :: rest) = p :: splitOnC sep rest := by
  intro p
  induction p with
  | nil =>
    intro rest _
    simp only [List.nil_append, splitOnC]
    rcases h : splitOnC sep rest with _ | _
    · exact absurd h (splitOnC_ne_nil sep rest)
    · simp [h]
  | cons c cs ih =>
    intro rest h
    have hc : ¬(c = sep) := by
      intro e
      exact h (by simp [e])
    have hcs : sep ∉ cs := fun hx => h (by simp [hx])
    simp only [List.cons_append, splitOnC, List.append_eq]
    rw [ih rest hcs]
    simp [hc]

theorem joinSep_cons (sep : Char) (p : List Char) (ps : List (List Char)) (h : ps ≠ []) :
    joinSep [sep] (p :: ps) = p ++ sep :: joinSep [sep] ps := by
  cases ps with
  | nil => exact absurd rfl h
  | cons q qs => simp [joinSep]

theorem splitOnC_joinSep (sep : Char) :
    ∀ parts : List (List Char), parts ≠ [] → (∀ p ∈ parts, sep ∉ p) →
      splitOnC sep (joinSep [sep] parts) = parts := by
  intro parts
  induction parts with
  | nil => intro h _; exact absurd rfl h
  | cons p ps ih =>
    intro _ hfree
    cases ps with
    | nil =>
      show splitOnC sep (joinSep [sep] [p]) = [p]
      simp only [joinSep]
      exact splitOnC_sep_free sep p (hfree p (by simp))
    | cons q qs =>
      rw [joinSep_cons sep p (q :: qs) (by simp)]
      rw [splitOnC_append sep p _ (hfree p (by simp))]
      rw [ih (by simp) (fun x hx => hfree x (by simp [List.mem_cons.mp hx]))]

/-! ## Helper lemmas: the unique descending arrangement of three rows -/

theorem sorted_desc_perm_three (l : List Conversation) (r1 r2 r3 : Conversation)
    (hperm : List.Perm l [r1, r2, r3]) (hsor : List.Sorted rDesc l)
    (h12 : r1.created_at < r2.created_at) (h23 : r2.created_at < r3.created_at) :
    l = [r3, r2, r1] := by
  have hlen : l.length = 3 := by simpa using hperm.length_eq
  rcases l with _ | ⟨a, _ | ⟨b, _ | ⟨c, _ | ⟨d, l4⟩⟩⟩⟩ <;> simp at hlen
  rw [List.sorted_cons] at hsor
  obtain ⟨hhead, hsor2⟩ := hsor
  rw [List.sorted_cons] at hsor2
  obtain ⟨hhead2, _⟩ := hsor2
  have kab : b.created_at ≤ a.created_at := hhead b (by simp)
  have kac : c.created_at ≤ a.created_at := hhead c (by simp)
  have kbc : c.created_at ≤ b.created_at := hhead2 c (by simp)
  have h3 : r3 = a ∨ r3 = b ∨ r3 = c := by
    have := hperm.mem_iff.mpr (show r3 ∈ [r1, r2, r3] by simp)
    simpa using this
  have h2 : r2 = a ∨ r2 = b ∨ r2 = c := by
    have := hperm.mem_iff.mpr (show r2 ∈ [r1, r2, r3] by simp)
    simpa using this
  have h1 : r1 = a ∨ r1 = b ∨ r1 = c := by
    have := hperm.mem_iff.mpr (show r1 ∈ [r1, r2, r3] by simp)
    simpa using this
  have ma : a = r1 ∨ a = r2 ∨ a = r3 := by
    have := hperm.mem_iff.mp (show a ∈ [a, b, c] by simp)
    simpa using this
  have mb : b = r1 ∨ b = r2 ∨ b = r3 := by
    have := hperm.mem_iff.mp (show b ∈ [a, b, c] by simp)
    simpa using this
  have mc : c = r1 ∨ c = r2 ∨ c = r3 := by
    have := hperm.mem_iff.mp (show c ∈ [a, b, c] by simp)
    simpa using this
  have ka3 : a.created_at = r3.created_at := by
    have hk3 : r3.created_at ≤ a.created_at := by
      rcases h3 with h | h | h
      · have hx := congrArg Conversation.created_at h
        omega
      · have hx := congrArg Conversation.created_at h
        omega
      · have hx := congrArg Conversation.created_at h
        omega
    rcases ma with h | h | h
    · have hx := congrArg Conversation.created_at h
      omega
    · have hx := congrArg Conversation.created_at h
      omega
    · have hx := congrArg Conversation.created_at h
      omega
  have ha : a = r3 := by
    rcases ma with h | h | h
    · exfalso
      have := congrArg Conversation.created_at h
      omega
    · exfalso
      have := congrArg Conversation.created_at h
      omega
    · exact h
  have h1bc : r1.created_at = b.created_at ∨ r1.created_at = c.created_at := by
    rcases h1 with h | h | h
    · exfalso
      have := congrArg Conversation.created_at h
      omega
    · exact Or.inl (congrArg Conversation.created_at h)
    · exact Or.inr (congrArg Conversation.created_at h)
  have kc1 : c.created_at = r1.created_at := by
    have hub : c.created_at ≤ r1.created_at := by
      rcases h1bc with h | h <;> omega
    rcases mc with h | h | h
    · have hx := congrArg Conversation.created_at h
      omega
    · have hx := congrArg Conversation.created_at h
      omega
    · have hx := congrArg Conversation.created_at h
      omega
  have hc : c = r1 := by
    rcases mc with h | h | h
    · exact h
    · exfalso
      have := congrArg Conversation.created_at h
      omega
    · exfalso
      have := congrArg Conversation.created_at h
      omega
  have kb2 : b.created_at = r2.created_at := by
    rcases h2 with h | h | h
    · have := congrArg Conversation.created_at h
      omega
    · exact (congrArg Conversation.created_at h).symm
    · have := congrArg Conversation.created_at h
      omega
  have hb : b = r2 := by
    rcases mb with h | h | h
    · exfalso
      have := congrArg Conversation.created_at h
      omega
    · exact h
    · exfalso
      have := congrArg Conversation.created_at h
      omega
  rw [ha, hb, hc]

/-! ## Helper lemmas: extraction -/

theorem hasSub_false_iff (pat s : List Char) :
    hasSub pat s = false ↔ findSub pat s = none := by
  unfold hasSub
  rcases findSub pat s <;> simp

theorem extract_no_end (s : List Char) (h : hasSub endTag s = false) :
    extract_think_and_answer s = (none, strip s) := by
  have hf : findSub endTag s = none := (hasSub_false_iff endTag s).mp h
  have hl : lastSub endTag s = none := (lastSub_none_iff endTag s).mpr hf
  simp [extract_think_and_answer, hl]

/-! ## Helper lemmas: context lines contain no newline -/

theorem newline_not_mem_userLine (r : Conversation) (h : '\n' ∉ r.incoming_message) :
    '\n' ∉ userLine r := by
  intro hm
  rcases List.mem_append.mp hm with h1 | h1
  · rcases List.mem_append.mp h1 with h2 | h2
    · exact absurd h2 (by decide)
    · exact h h2
  · exact absurd h1 (by decide)

theorem newline_not_mem_assistantLine (r : Conversation)
    (h : '\n' ∉ (extract_think_and_answer r.outgoing_message).2) :
    '\n' ∉ assistantLine r := by
  intro hm
  rcases List.mem_append.mp hm with h1 | h1
  · rcases List.mem_append.mp h1 with h2 | h2
    · exact absurd h2 (by decide)
    · exact h h2
  · exact absurd h1 (by decide)

/-! ## Fixtures used by concrete witnesses -/

def convR1 : Conversation :=
  ⟨("u1").data, ("c").data, ("t1").data, ("hi one").data,
    ("<think>r1</think>ans one").data, ("m").data, 1⟩

def convR2 : Conversation :=
  ⟨("u2").data, ("c").data, ("t2").data, ("hi two").data, ("ans two").data, ("m").data, 2⟩

def convR3 : Conversation :=
  ⟨("u3").data, ("c").data, ("t3").data, ("hi three").data, ("ans three").data, ("m").data, 3⟩

def convDb : List Conversation := [convR2, convR3, convR1]

def evW : SlackEvent := ⟨("u9").data, ("c").data, ("ts42").data, ("<@U1ABC> what is CVD?").data⟩

def dbW : List Conversation :=
  [⟨("u0").data, ("c").data, ("ts41").data, ("q").data, ("a").data, ("m").data, 0⟩]

/-! ## The claims -/

/-- C1 (corrected).  The claim as frozen is false: a chunk can exceed
`maxLength` even when the window does contain a space.  With the text
`"ab cdefgh.xyzw extra"` and `maxLength = 10`, the first 10 characters
contain a space (index 2), yet the period at index 9 sets the split index to
exactly 10, which triggers the forward-search fallback and yields the chunk
`"ab cdefgh.xyzw"` of length 14 > 10. -/
theorem chunk_text_window_space_overflow_cex :
    ' ' ∈ (("ab cdefgh.xyzw extra").data.take 10) ∧
      (∃ ch ∈ chunk_text (("ab cdefgh.xyzw extra").data) 10, 10 < ch.length) := by
  decide

/-- C1 (amended).  For `maxLength ≥ 1`: every chunk has length at most
`maxLength + 100`; a chunk can exceed `maxLength` only in a step whose
boundary-selection index equals exactly `maxLength` (which happens when the
window has no qualifying boundary, or when the chosen boundary sits at the
last window position) and the forward search then finds a space: whenever
the boundary-selection index is strictly below `maxLength`, and likewise
whenever the final split index is at most `maxLength`, the emitted chunk
has length at most `maxLength`. -/
theorem chunk_length_bound_amended (m : Nat) (hm : 1 ≤ m) :
    (∀ t, ∀ ch ∈ chunk_text t m, ch.length ≤ m + 100) ∧
    (∀ t, splitIndex t m < m → (strip (t.take (chunkEnd t m))).length ≤ m) ∧
    (∀ t, chunkEnd t m ≤ m → (strip (t.take (chunkEnd t m))).length ≤ m) := by
  refine ⟨?_, ?_, ?_⟩
  · intro t ch hc
    exact chunk_all_le m hm t.length t (Nat.le_refl _) ch hc
  · intro t h
    rw [chunkEnd_eq_of_lt t m h]
    have h1 := strip_length_le (t.take (splitIndex t m))
    have h2 : (t.take (splitIndex t m)).length ≤ splitIndex t m := by simp
    omega
  · intro t h
    have h1 := strip_length_le (t.take (chunkEnd t m))
    have h2 : (t.take (chunkEnd t m)).length ≤ chunkEnd t m := by simp
    omega

theorem chunk_length_bound_amended_witness :
    (∀ t, ∀ ch ∈ chunk_text t 10, ch.length ≤ 10 + 100) ∧
    (∀ t, splitIndex t 10 < 10 → (strip (t.take (chunkEnd t 10))).length ≤ 10) ∧
    (∀ t, chunkEnd t 10 ≤ 10 → (strip (t.take (chunkEnd t 10))).length ≤ 10) :=
  chunk_length_bound_amended 10 (by decide)

/-- C2 (confirmed).  `extract_think_and_answer` returns the trimmed inner
texts of the non-overlapping think spans in order (`thinkInners`, the
scanner with the leftmost/lazy semantics of the source regex) together with
the trimmed text after the last `</think>`; with no `</think>` it returns
`(none, trimmed input)`; and on `"<think>A</think><think>B</think>tail"` it
returns `(["A", "B"], "tail")`. -/
theorem extract_think_and_answer_spec :
    (extract_think_and_answer (("<think>A</think><think>B</think>tail").data) =
      (some [("A").data, ("B").data], ("tail").data)) ∧
    (∀ s, hasSub endTag s = false → extract_think_and_answer s = (none, strip s)) ∧
    (∀ s j, lastSub endTag s = some j →
      extract_think_and_answer s =
        (some ((thinkInners s).map strip), strip (s.drop (j + 8)))) := by
  refine ⟨by decide, ?_, ?_⟩
  · intro s h
    exact extract_no_end s h
  · intro s j h
    simp [extract_think_and_answer, h]

/-- C3 (confirmed).  `get_recent_conversations` returns the empty string
when no record matches the channel/model pair; and with exactly three
matching records (in whatever store order, with distinct creation times and
no newline in the quoted texts) it returns exactly six newline-separated
lines, oldest record first, alternating a user line and an assistant line
whose answer is extracted from the outgoing message. -/
theorem get_recent_conversations_spec (db : List Conversation) (ch mo : List Char) :
    (db.filter (fun c => convMatches c ch mo) = [] →
      get_recent_conversations db ch mo 5 = []) ∧
    (∀ r1 r2 r3 : Conversation,
      List.Perm (db.filter (fun c => convMatches c ch mo)) [r1, r2, r3] →
      r1.created_at < r2.created_at → r2.created_at < r3.created_at →
      '\n' ∉ r1.incoming_message → '\n' ∉ r2.incoming_message →
      '\n' ∉ r3.incoming_message →
      '\n' ∉ (extract_think_and_answer r1.outgoing_message).2 →
      '\n' ∉ (extract_think_and_answer r2.outgoing_message).2 →
      '\n' ∉ (extract_think_and_answer r3.outgoing_message).2 →
      splitOnC '\n' (get_recent_conversations db ch mo 5) =
        [userLine r1, assistantLine r1, userLine r2, assistantLine r2,
          userLine r3, assistantLine r3]) := by
  constructor
  · intro h
    simp only [get_recent_conversations]
    rw [h]
    rfl
  · intro r1 r2 r3 hperm h12 h23 hi1 hi2 hi3 ha1 ha2 ha3
    have hsorted := List.sorted_insertionSort rDesc (db.filter (fun c => convMatches c ch mo))
    have hperm' :
        List.Perm ((db.filter (fun c => convMatches c ch mo)).insertionSort rDesc)
          [r1, r2, r3] :=
      (List.perm_insertionSort rDesc _).trans hperm
    have hsort3 := sorted_desc_perm_three _ r1 r2 r3 hperm' hsorted h12 h23
    simp only [get_recent_conversations]
    rw [hsort3]
    show splitOnC '\n'
        (joinSep ['\n']
          [userLine r1, assistantLine r1, userLine r2, assistantLine r2,
            userLine r3, assistantLine r3]) = _
    rw [splitOnC_joinSep '\n'
      [userLine r1, assistantLine r1, userLine r2, assistantLine r2,
        userLine r3, assistantLine r3] (by simp) ?_]
    intro p hp
    simp only [List.mem_cons] at hp
    rcases hp with h | h | h | h | h | h | h
    · rw [h]; exact newline_not_mem_userLine r1 hi1
    · rw [h]; exact newline_not_mem_assistantLine r1 ha1
    · rw [h]; exact newline_not_mem_userLine r2 hi2
    · rw [h]; exact newline_not_mem_assistantLine r2 ha2
    · rw [h]; exact newline_not_mem_userLine r3 hi3
    · rw [h]; exact newline_not_mem_assistantLine r3 ha3
    · simp at h

theorem get_recent_conversations_spec_witness :
    splitOnC '\n' (get_recent_conversations convDb (("c").data) (("m").data) 5) =
      [userLine convR1, assistantLine convR1, userLine convR2, assistantLine convR2,
        userLine convR3, assistantLine convR3] :=
  (get_recent_conversations_spec convDb (("c").data) (("m").data)).2 convR1 convR2 convR3
    (by decide) (by decide) (by decide) (by decide) (by decide) (by decide)
    (by decide) (by decide) (by decide)

/-- C4 (confirmed).  On a mention event whose `ts` is fresh in the store,
`handle_mention` first creates the record with empty outgoing text and then
performs its single update, setting `outgoing_message` of exactly that
record (matched by `message_id = ts`) to the raw model text `resp`; every
other field and every pre-existing record is unchanged. -/
theorem handle_mention_updates_exactly_matching_record
    (db : List Conversation) (ev : SlackEvent) (mn : List Char) (now : Nat)
    (resp : List Char) (hfresh : ∀ c ∈ db, c.message_id ≠ ev.ts) :
    handle_mention_store db ev mn now resp =
      db ++ [⟨ev.user, ev.channel, ev.ts, clean_message ev.text, resp, mn, now⟩] := by
  unfold handle_mention_store
  induction db with
  | nil => simp [updateFirstOutgoing, mentionRecord]
  | cons c rest ih =>
    have hne : c.message_id ≠ ev.ts := hfresh c (by simp)
    simp only [List.cons_append, updateFirstOutgoing, if_neg hne, List.append_eq]
    rw [ih (fun x hx => hfresh x (by simp [hx]))]

theorem handle_mention_updates_exactly_matching_record_witness :
    handle_mention_store dbW evW (("m").data) 7 (("the reply").data) =
      dbW ++ [⟨evW.user, evW.channel, evW.ts, clean_message evW.text, ("the reply").data,
        ("m").data, 7⟩] :=
  handle_mention_updates_exactly_matching_record dbW evW (("m").data) 7 (("the reply").data)
    (by decide)

/-- C5 (corrected).  The claim as frozen is false: a single `re.sub` pass
can splice the text around a removed token into a new mention token, so the
result may still contain a mention and `clean_message` is not idempotent.
On `"<@<@A>B>"` the pass removes only `<@A>`, leaving `"<@B>"`, and a second
application gives `""`. -/
theorem clean_message_not_idempotent_cex :
    hasMention (clean_message (("<@<@A>B>").data)) = true ∧
      clean_message (clean_message (("<@<@A>B>").data)) ≠
        clean_message (("<@<@A>B>").data) := by
  decide

/-- C5 (amended).  `clean_message` removes, in one left-to-right pass, every
mention token of its input; when the result of that pass contains no mention
token (removal can splice one together, as the counterexample shows),
`clean_message` is a fixpoint there: `clean(clean(text)) = clean(text)`
whenever `clean(text)` contains no mention token. -/
theorem clean_message_fixpoint_when_result_mention_free (s : List Char)
    (h : hasMention (clean_message s) = false) :
    clean_message (clean_message s) = clean_message s := by
  show strip (removeMentions (clean_message s)) = clean_message s
  rw [removeMentions_no_mention _ h]
  show strip (strip (removeMentions s)) = strip (removeMentions s)
  exact strip_strip _

theorem clean_message_fixpoint_when_result_mention_free_witness :
    clean_message (clean_message (("<@U1ABC> hello").data)) =
      clean_message (("<@U1ABC> hello").data) :=
  clean_message_fixpoint_when_result_mention_free (("<@U1ABC> hello").data) (by decide)

/-- C6 (confirmed).  For every text and `maxLength ≥ 1`, the chunks occur in
the original text in order and only boundary whitespace is removed between
them: the original text is exactly the chunks interleaved with
whitespace-only separators (so no non-whitespace character is lost or
duplicated). -/
theorem chunk_text_reconstructs (t : List Char) (m : Nat) (hm : 1 ≤ m) :
    ∃ seps : List (List Char),
      seps.length = (chunk_text t m).length + 1 ∧ (∀ w ∈ seps, allWsL w) ∧
        interleave seps (chunk_text t m) = t :=
  chunk_reconstruct m hm t.length t (Nat.le_refl _)

theorem chunk_text_reconstructs_witness :
    ∃ seps : List (List Char),
      seps.length = (chunk_text (("ab cd.  ef gh").data) 4).length + 1 ∧
        (∀ w ∈ seps, allWsL w) ∧
        interleave seps (chunk_text (("ab cd.  ef gh").data) 4) = ("ab cd.  ef gh").data :=
  chunk_text_reconstructs (("ab cd.  ef gh").data) 4 (by decide)

/-- C7 (corrected).  Termination and forward progress hold: with
`maxLength ≥ 1` every loop iteration consumes at least one character of the
remaining text (so `chunk_text`, defined with fuel equal to the input
length, computes the loop's full output).  But the frozen claim's
"non-empty result for every non-empty input" is false: an all-whitespace
input longer than `maxLength` produces no chunk at all, since every emitted
piece is stripped to empty and skipped. -/
theorem chunk_text_empty_on_long_whitespace_cex :
    List.replicate 11 ' ' ≠ ([] : List Char) ∧
      chunk_text (List.replicate 11 ' ') 10 = [] := by
  decide

/-- C7 (amended).  For `maxLength ≥ 1`: each splitting step strictly
decreases the remaining length (forward progress, hence termination), and
the result is non-empty for every non-empty input that either fits in one
chunk or contains at least one non-whitespace character. -/
theorem chunk_text_progress_and_nonempty (t : List Char) (m : Nat) (hm : 1 ≤ m) :
    (m < t.length → (strip (t.drop (chunkEnd t m))).length < t.length) ∧
    (t ≠ [] → (t.length ≤ m ∨ ∃ c ∈ t, isWs c = false) → chunk_text t m ≠ []) := by
  constructor
  · intro h
    exact chunk_rest_lt t m hm h
  · intro ht hor
    rcases hor with h | ⟨c, hc, hcw⟩
    · rw [chunk_text_small t m ht h]
      simp
    · intro hnil
      obtain ⟨seps, hlen, hws, hint⟩ := chunk_reconstruct m hm t.length t (Nat.le_refl _)
      rw [hnil] at hlen hint
      rcases seps with _ | ⟨w, ws⟩
      · simp at hlen
      · rcases ws with _ | _
        · simp only [interleave] at hint
          have hcw2 : isWs c = true := hws w (by simp) c (by rw [hint]; exact hc)
          rw [hcw2] at hcw
          exact Bool.noConfusion hcw
        · simp at hlen

theorem chunk_text_progress_and_nonempty_witness :
    ((3 < (("hello there").data).length →
      (strip ((("hello there").data).drop (chunkEnd (("hello there").data) 3))).length <
        (("hello there").data).length) ∧
    ((("hello there").data) ≠ [] →
      ((("hello there").data).length ≤ 3 ∨ ∃ c ∈ (("hello there").data), isWs c = false) →
      chunk_text (("hello there").data) 3 ≠ [])) :=
  chunk_text_progress_and_nonempty (("hello there").data) 3 (by decide)

/-- C8 (confirmed).  A failing store transaction rolls back (the committed
state is unchanged) and never blocks the user-facing reply: in both the echo
flow and the mention flow the reply is the same whether or not the create
or update transaction committed, the echo reply being the sanitized input
and the mention reply the formatted model response. -/
theorem store_failure_never_blocks_reply (db : List Conversation) (ev : SlackEvent)
    (mn : List Char) (now : Nat) (resp : List Char) (storeOk createOk updateOk : Bool) :
    ((handle_message_flow db ev now storeOk).2 = (handle_message_flow db ev now true).2) ∧
    ((handle_message_flow db ev now false).1 = db) ∧
    (ev.text ≠ [] → (handle_message_flow db ev now storeOk).2 =
      some (clean_message ev.text)) ∧
    ((handle_mention_flow db ev mn now resp createOk updateOk).2 =
      (handle_mention_flow db ev mn now resp true true).2) ∧
    ((handle_mention_flow db ev mn now resp false false).1 = db) ∧
    (ev.text ≠ [] →
      (handle_mention_flow db ev mn now resp createOk updateOk).2 =
        some (format_slack_response resp)) := by
  by_cases h : ev.text = [] <;>
    simp [handle_message_flow, handle_mention_flow, h]

/-- C9 (confirmed).  On input with no think tags the formatter emits no
thinking section at all: the output is exactly the answer heading followed
by the chunked, bold-transformed answer section blocks, and contains no
divider block. -/
theorem format_no_think_tags_no_thinking_block (s : List Char)
    (hstart : hasSub startTag s = false) (hend : hasSub endTag s = false) :
    format_slack_response s =
      answerHeading :: (chunk_text (boldSub (strip s)) 2900).map SBlock.sec ∧
    SBlock.divider ∉ format_slack_response s := by
  have hex : extract_think_and_answer s = (none, strip s) := extract_no_end s hend
  have hmain : format_slack_response s =
      answerHeading :: (chunk_text (boldSub (strip s)) 2900).map SBlock.sec := by
    simp [format_slack_response, hex]
  refine ⟨hmain, ?_⟩
  rw [hmain]
  intro hmem
  rcases List.mem_cons.mp hmem with h | h
  · exact SBlock.noConfusion h
  · obtain ⟨x, _, hx⟩ := List.mem_map.mp h
    exact SBlock.noConfusion hx

theorem format_no_think_tags_no_thinking_block_witness :
    format_slack_response (("Just an **answer** here.").data) =
      answerHeading ::
        (chunk_text (boldSub (strip (("Just an **answer** here.").data))) 2900).map
          SBlock.sec ∧
    SBlock.divider ∉ format_slack_response (("Just an **answer** here.").data) :=
  format_no_think_tags_no_thinking_block (("Just an **answer** here.").data)
    (by decide) (by decide)

/-- C10 (confirmed).  `extract_think_and_answer` returns `none` for the
reasoning segments exactly when the input contains no `</think>`; an input
with an end tag but no complete span yields the empty list (distinct from
`none`) together with the trimmed text after the last `</think>`. -/
theorem extract_reasoning_none_iff_no_end_tag :
    (∀ s, (extract_think_and_answer s).1 = none ↔ hasSub endTag s = false) ∧
    extract_think_and_answer (("oops</think> tail").data) = (some [], ("tail").data) := by
  constructor
  · intro s
    rcases hl : lastSub endTag s with _ | j
    · constructor
      · intro _
        rw [hasSub_false_iff]
        exact (lastSub_none_iff endTag s).mp hl
      · intro _
        simp [extract_think_and_answer, hl]
    · constructor
      · intro hx
        exfalso
        simp [extract_think_and_answer, hl] at hx
      · intro hx
        exfalso
        have hf : findSub endTag s = none := (hasSub_false_iff endTag s).mp hx
        have hln : lastSub endTag s = none := (lastSub_none_iff endTag s).mpr hf
        rw [hl] at hln
        exact Option.noConfusion hln
  · decide
